import Mathlib

/-!
Shallow embedding of the Connect Four engine (`src/game/board.rs`,
`src/game/game.rs`, `src/game/player.rs`) and proofs about it.

Rust `Vec` becomes `List`, `Option<Player>` becomes `Option Player`,
indexing `v[i]` becomes `List.getD i default` (the default is never hit
under the in-range hypotheses carried by the theorems), and panics in
`Game::new` become `Except.error`.
-/

namespace ConnectFour

/-- A player, as in `player.rs`: a name and a single-character token.
Equality is by value (the Rust struct derives `PartialEq`). -/
structure Player where
  name : String
  token : Char
deriving DecidableEq, Repr

/-- A board cell: empty (`none`) or occupied by a player (`board.rs`). -/
abbrev BoardCell := Option Player

/-- A row of the board. -/
abbrev BoardRow := List BoardCell

/-- The game board of `board.rs`: a vector of rows, row 0 at the top. -/
structure Board where
  rows : List BoardRow
deriving DecidableEq, Repr

/-- `Board::new(row_count, col_count)`: an all-empty grid. -/
def Board.new (row_count col_count : Nat) : Board :=
  ⟨List.replicate row_count (List.replicate col_count none)⟩

/-- Reading `self.rows[i][j]`; out-of-range reads (which would panic in
Rust) return the default `none` / `[]`. -/
def Board.cell (b : Board) (i j : Nat) : BoardCell :=
  (b.rows.getD i []).getD j none

/-- The number of rows, `self.rows.len()`. -/
def Board.rowCount (b : Board) : Nat := b.rows.length

/-- The number of columns, `self.rows[0].len()`. -/
def Board.colCount (b : Board) : Nat := (b.rows.getD 0 []).length

/-- The row index selected by the loop in `Board::place_token`: scan rows
top to bottom, remembering the last row whose cell in `col` is empty;
`target_row` starts at 0. -/
def Board.targetRow (b : Board) (col : Nat) : Nat :=
  (List.range b.rows.length).foldl
    (fun acc i => if ((b.rows.getD i []).getD col none).isNone then i else acc) 0

/-- `Board::place_token(col, player)`: write the player into
`rows[target_row][col]`. -/
def Board.place_token (b : Board) (col : Nat) (p : Player) : Board :=
  ⟨b.rows.set (b.targetRow col)
    ((b.rows.getD (b.targetRow col) []).set col (some p))⟩

/-- `Board::valid_move(col)`: the column index is in range and the column
has at least one empty cell. -/
def Board.valid_move (b : Board) (col : Nat) : Bool :=
  if (b.rows.getD 0 []).length ≤ col then false
  else b.rows.any (fun row => (row.getD col none).isNone)

/-- `Board::is_board_full()`: no row contains an empty cell. -/
def Board.is_board_full (b : Board) : Bool :=
  b.rows.all (fun row => !(row.any (fun cell => cell.isNone)))

/-- `Board::get_diagonals_top_left_to_bottom_right`: for each offset `d`
collect the in-range cells `rows[i][d - i]`, keeping non-empty diagonals. -/
def Board.get_diagonals_top_left_to_bottom_right (b : Board) : List (List BoardCell) :=
  ((List.range (b.rows.length + (b.rows.getD 0 []).length - 1)).map (fun (d : Nat) =>
    (List.range b.rows.length).filterMap (fun (i : Nat) =>
      let j : Int := (d : Int) - (i : Int)
      if 0 ≤ j ∧ j < ((b.rows.getD 0 []).length : Int) then
        some ((b.rows.getD i []).getD j.toNat none)
      else none))).filter (fun diagonal => !diagonal.isEmpty)

/-- `Board::get_diagonals_top_right_to_bottom_left`: for each offset `d`
collect the in-range cells `rows[i][(cols - 1) - (d - i)]`, keeping
non-empty diagonals. -/
def Board.get_diagonals_top_right_to_bottom_left (b : Board) : List (List BoardCell) :=
  ((List.range (b.rows.length + (b.rows.getD 0 []).length - 1)).map (fun (d : Nat) =>
    (List.range b.rows.length).filterMap (fun (i : Nat) =>
      let j : Int := (((b.rows.getD 0 []).length : Int) - 1) - ((d : Int) - (i : Int))
      if 0 ≤ j ∧ j < ((b.rows.getD 0 []).length : Int) then
        some ((b.rows.getD i []).getD j.toNat none)
      else none))).filter (fun diagonal => !diagonal.isEmpty)

/-- The status of a game (`game.rs`). -/
inductive GameStatus where
  | Ongoing : GameStatus
  | Draw : GameStatus
  | Win : Player → GameStatus
deriving DecidableEq, Repr

/-- A game of Connect Four (`game.rs`). -/
structure Game where
  board : Board
  tokens_to_win : Nat
  players : List Player
  current_turn : Nat
deriving Repr

/-- The scan loop of `Game::check_line`, with the mutable state `count`
and `last_player` made explicit. A cell of the current player increments
the count and wins when it reaches `tokens_to_win`; a cell of a different
player restarts the count at 1; an empty cell resets it to 0. -/
def check_line_go (line : List BoardCell) (tokens_to_win : Nat)
    (count : Nat) (last_player : BoardCell) : BoardCell :=
  match line with
  | [] => none
  | cell :: rest =>
    match cell with
    | some player =>
      if some player = last_player then
        if count + 1 = tokens_to_win then some player
        else check_line_go rest tokens_to_win (count + 1) (some player)
      else check_line_go rest tokens_to_win 1 (some player)
    | none => check_line_go rest tokens_to_win 0 none

/-- `Game::check_line(line, tokens_to_win)`, starting from count 0 and no
last player. -/
def check_line (line : List BoardCell) (tokens_to_win : Nat) : BoardCell :=
  check_line_go line tokens_to_win 0 none

/-- The column extraction in `Game::find_winner`. -/
def Board.getColumn (b : Board) (col : Nat) : List BoardCell :=
  b.rows.map (fun row => row.getD col none)

/-- `Game::find_winner`: scan rows, then columns, then both diagonal
directions, returning the first winner found. -/
def Game.find_winner (g : Game) : BoardCell :=
  match g.board.rows.findSome? (fun row => check_line row g.tokens_to_win) with
  | some winner => some winner
  | none =>
    match (List.range (g.board.rows.getD 0 []).length).findSome?
        (fun col => check_line (g.board.getColumn col) g.tokens_to_win) with
    | some winner => some winner
    | none =>
      match g.board.get_diagonals_top_left_to_bottom_right.findSome?
          (fun diagonal => check_line diagonal g.tokens_to_win) with
      | some winner => some winner
      | none =>
        g.board.get_diagonals_top_right_to_bottom_left.findSome?
          (fun diagonal => check_line diagonal g.tokens_to_win)

/-- `Game::status`: the board-full check comes first and returns `Draw`;
only on a non-full board is `find_winner` consulted. -/
def Game.status (g : Game) : GameStatus :=
  if g.board.is_board_full then GameStatus.Draw
  else
    match g.find_winner with
    | some winner => GameStatus.Win winner
    | none => GameStatus.Ongoing

/-- The loop of `Game::validate_players`, with the `HashSet` of seen
tokens made an explicit list: fails at the first player whose token was
already seen. -/
def validate_players_go (players : List Player) (seen : List Char) : Except String Unit :=
  match players with
  | [] => Except.ok ()
  | p :: rest =>
    if p.token ∈ seen then
      Except.error ("Duplicate token found for player: " ++ p.name)
    else validate_players_go rest (p.token :: seen)

/-- `Game::validate_players`. -/
def validate_players (players : List Player) : Except String Unit :=
  validate_players_go players []

/-- `Game::validate_game_config`. -/
def validate_game_config (rows cols tokens_to_win : Nat) : Except String Unit :=
  if rows < 1 ∨ cols < 1 then
    Except.error "Rows and columns must be greater than 0."
  else if tokens_to_win < 2 then
    Except.error "Tokens to win must be at least 2."
  else if tokens_to_win > rows ∨ tokens_to_win > cols then
    Except.error "Tokens to win cannot be greater than rows or columns."
  else Except.ok ()

/-- `Game::new`, with each `panic!` modelled as `Except.error`. -/
def Game.new (row_count col_count tokens_to_win : Nat) (players : List Player) :
    Except String Game :=
  if players.length < 2 then Except.error "Must have at least 2 players."
  else
    match validate_players players with
    | Except.error e => Except.error e
    | Except.ok _ =>
      match validate_game_config row_count col_count tokens_to_win with
      | Except.error err => Except.error ("Invalid game configuration: " ++ err)
      | Except.ok _ =>
        if row_count * col_count < players.length * tokens_to_win then
          Except.error "Too many players for the board size."
        else
          Except.ok
            { board := Board.new row_count col_count
              tokens_to_win := tokens_to_win
              players := players
              current_turn := 0 }

/-- One iteration of the loop in `Game::start` once a column has been
accepted: place the current player's token, then advance the turn. -/
def Game.playMove (g : Game) (col : Nat) : Game :=
  { g with
    board := g.board.place_token col (g.players.getD g.current_turn ⟨"", ' '⟩)
    current_turn := (g.current_turn + 1) % g.players.length }

/-- The turn-loop transition of `Game::start`: a step plays some column
that `valid_move` accepted. -/
inductive GameStep : Game → Game → Prop where
  | move (g : Game) (col : Nat) (h : g.board.valid_move col = true) :
      GameStep g (g.playMove col)

/-! Basic list-access lemmas used throughout. -/

theorem getD_set_ne {α : Type _} (l : List α) {i j : Nat} (a d : α) (h : i ≠ j) :
    (l.set i a).getD j d = l.getD j d := by
  rw [List.getD_eq_getElem?_getD, List.getD_eq_getElem?_getD, List.getElem?_set_ne h]

theorem getD_set_self {α : Type _} (l : List α) {i : Nat} (a d : α) (h : i < l.length) :
    (l.set i a).getD i d = a := by
  rw [List.getD_eq_getElem?_getD, List.getElem?_set_self h, Option.getD_some]

theorem getD_map_range {α : Type _} (l : List α) (d : α) :
    (List.range l.length).map (fun i => l.getD i d) = l := by
  induction l with
  | nil => rfl
  | cons a l ih =>
    have : (List.range (a :: l).length) = 0 :: (List.range l.length).map Nat.succ := by
      simpa using List.range_succ_eq_map l.length
    rw [this]
    simp only [List.map_cons, List.map_map]
    exact congrArg (a :: ·) ih

/-! The scan of `Board::place_token` keeps the index of the last empty row
it sees; we characterise the resulting fold. -/

theorem foldl_pick_eq_of_greatest (p : Nat → Bool) :
    ∀ (n a t : Nat), t < n → p t = true → (∀ i, t < i → i < n → p i = false) →
      (List.range n).foldl (fun acc i => if p i then i else acc) a = t := by
  intro n
  induction n with
  | zero => intro a t ht _ _; omega
  | succ n ih =>
    intro a t ht hpt hmax
    rw [List.range_succ, List.foldl_append, List.foldl_cons, List.foldl_nil]
    by_cases hn : t = n
    · subst hn; simp [hpt]
    · have hpn : p n = false := hmax n (by omega) (by omega)
      rw [hpn]
      simpa using ih a t (by omega) hpt (fun i h1 h2 => hmax i h1 (by omega))

theorem foldl_pick_eq_of_none (p : Nat → Bool) :
    ∀ (n a : Nat), (∀ i, i < n → p i = false) →
      (List.range n).foldl (fun acc i => if p i then i else acc) a = a := by
  intro n
  induction n with
  | zero => intro a _; rfl
  | succ n ih =>
    intro a hall
    rw [List.range_succ, List.foldl_append, List.foldl_cons, List.foldl_nil]
    rw [hall n (by omega)]
    simpa using ih a (fun i hi => hall i (by omega))

theorem exists_greatest_lt (p : Nat → Bool) :
    ∀ (n : Nat), (∃ i, i < n ∧ p i = true) →
      ∃ t, t < n ∧ p t = true ∧ ∀ i, t < i → i < n → p i = false := by
  intro n
  induction n with
  | zero => rintro ⟨i, hi, _⟩; omega
  | succ n ih =>
    rintro ⟨i, hi, hpi⟩
    by_cases hn : p n = true
    · exact ⟨n, by omega, hn, fun j h1 h2 => by omega⟩
    · have hin : i < n := by
        rcases Nat.lt_succ_iff_lt_or_eq.mp hi with h | h
        · exact h
        · exact absurd (h ▸ hpi) hn
      obtain ⟨t, h1, h2, h3⟩ := ih ⟨i, hin, hpi⟩
      refine ⟨t, by omega, h2, fun j hj1 hj2 => ?_⟩
      by_cases hjn : j = n
      · subst hjn
        simp only [Bool.not_eq_true] at hn
        exact hn
      · exact h3 j hj1 (by omega)

/-- On a column with at least one empty cell, `target_row` is the greatest
index of an empty cell in that column. -/
theorem targetRow_spec (b : Board) (col : Nat)
    (hfree : ∃ i, i < b.rows.length ∧ b.cell i col = none) :
    b.targetRow col < b.rows.length ∧ b.cell (b.targetRow col) col = none ∧
      ∀ i, b.targetRow col < i → i < b.rows.length → b.cell i col ≠ none := by
  have hfree' : ∃ i, i < b.rows.length ∧
      ((b.rows.getD i []).getD col none).isNone = true := by
    obtain ⟨i, hi, hc⟩ := hfree
    exact ⟨i, hi, by simpa [Board.cell, Option.isNone_iff_eq_none] using hc⟩
  obtain ⟨t, ht, hpt, hmax⟩ :=
    exists_greatest_lt (fun i => ((b.rows.getD i []).getD col none).isNone)
      b.rows.length hfree'
  have heq : b.targetRow col = t :=
    foldl_pick_eq_of_greatest _ b.rows.length 0 t ht hpt hmax
  refine ⟨heq ▸ ht, ?_, ?_⟩
  · rw [heq]
    simpa [Board.cell, Option.isNone_iff_eq_none] using hpt
  · intro i h1 h2 hc
    have := hmax i (heq ▸ h1) h2
    rw [Board.cell] at hc
    rw [hc] at this
    simp at this

/-- On a full column the scan never updates `target_row`, which stays 0. -/
theorem targetRow_of_full (b : Board) (col : Nat)
    (hfull : ∀ i, i < b.rows.length → b.cell i col ≠ none) :
    b.targetRow col = 0 := by
  refine foldl_pick_eq_of_none _ b.rows.length 0 (fun i hi => ?_)
  have := hfull i hi
  rw [Board.cell] at this
  rw [Bool.eq_false_iff]
  intro hc
  exact this (Option.isNone_iff_eq_none.mp hc)

/-! Cell-level description of `Board::place_token`. -/

/-- Cells other than `(target_row, col)` are untouched by `place_token`. -/
theorem cell_place_of_ne (b : Board) (col : Nat) (p : Player) (i j : Nat)
    (h : ¬(i = b.targetRow col ∧ j = col)) :
    (b.place_token col p).cell i j = b.cell i j := by
  unfold Board.place_token Board.cell
  by_cases hi : i = b.targetRow col
  · have hj : j ≠ col := fun hj => h ⟨hi, hj⟩
    subst hi
    by_cases ht : b.targetRow col < b.rows.length
    · simp only
      rw [getD_set_self _ _ _ ht, getD_set_ne _ _ _ (Ne.symm hj)]
    · simp only
      rw [List.set_eq_of_length_le (by omega)]
  · simp only
    rw [getD_set_ne _ _ _ (fun hti => hi hti.symm)]

/-- The targeted cell itself receives the player. -/
theorem cell_place_self (b : Board) (col : Nat) (p : Player)
    (ht : b.targetRow col < b.rows.length)
    (hcol : col < (b.rows.getD (b.targetRow col) []).length) :
    (b.place_token col p).cell (b.targetRow col) col = some p := by
  unfold Board.place_token Board.cell
  simp only
  rw [getD_set_self _ _ _ ht, getD_set_self _ _ _ hcol]

/-- `place_token` does not change the number of rows. -/
theorem place_rowCount (b : Board) (col : Nat) (p : Player) :
    (b.place_token col p).rows.length = b.rows.length := by
  unfold Board.place_token
  exact List.length_set ..

/-- `place_token` does not change the length of any row. -/
theorem place_rowLen (b : Board) (col : Nat) (p : Player) (i : Nat) :
    ((b.place_token col p).rows.getD i []).length = (b.rows.getD i []).length := by
  unfold Board.place_token
  by_cases hi : i = b.targetRow col
  · subst hi
    by_cases ht : b.targetRow col < b.rows.length
    · simp only
      rw [getD_set_self _ _ _ ht, List.length_set]
    · simp only
      rw [List.set_eq_of_length_le (by omega)]
  · simp only
    rw [getD_set_ne _ _ _ (fun hti => hi hti.symm)]

/-! Rectangular boards and `valid_move`. -/

/-- A board with exactly `R` rows, each of length `C` (the shape invariant
of the Rust `Board`, §3 of the spec). -/
def Rect (b : Board) (R C : Nat) : Prop :=
  b.rows.length = R ∧ ∀ row ∈ b.rows, row.length = C

theorem Rect.rowLen {b : Board} {R C : Nat} (h : Rect b R C) {i : Nat} (hi : i < R) :
    (b.rows.getD i []).length = C := by
  have hlen : i < b.rows.length := h.1 ▸ hi
  rw [List.getD_eq_getElem?_getD, List.getElem?_eq_getElem hlen, Option.getD_some]
  exact h.2 _ (List.getElem_mem hlen)

theorem Rect.colCount {b : Board} {R C : Nat} (h : Rect b R C) (hR : 0 < R) :
    b.colCount = C := by
  unfold Board.colCount
  exact h.rowLen hR

theorem rect_new (R C : Nat) : Rect (Board.new R C) R C := by
  constructor
  · exact List.length_replicate ..
  · intro row hrow
    rw [List.eq_of_mem_replicate hrow]
    exact List.length_replicate ..

theorem rect_place {b : Board} {R C : Nat} (h : Rect b R C) (col : Nat) (p : Player) :
    Rect (b.place_token col p) R C := by
  refine ⟨(place_rowCount b col p).trans h.1, ?_⟩
  intro row hrow
  rw [List.mem_iff_getElem] at hrow
  obtain ⟨n, hn, hrow⟩ := hrow
  have hn' : n < R := by
    rw [place_rowCount] at hn
    exact h.1 ▸ hn
  have : (b.place_token col p).rows.getD n [] = row := by
    rw [List.getD_eq_getElem?_getD, List.getElem?_eq_getElem hn, Option.getD_some, hrow]
  rw [← this, place_rowLen]
  exact h.rowLen hn'

/-- `valid_move` accepts exactly the in-range columns with an empty cell. -/
theorem valid_move_iff (b : Board) (col : Nat) :
    b.valid_move col = true ↔
      col < (b.rows.getD 0 []).length ∧
        ∃ i, i < b.rows.length ∧ b.cell i col = none := by
  unfold Board.valid_move
  by_cases hc : (b.rows.getD 0 []).length ≤ col
  · simp only [if_pos hc]
    constructor
    · intro h; exact absurd h (by simp)
    · intro h; omega
  · simp only [if_neg hc, List.any_eq_true]
    constructor
    · rintro ⟨row, hrow, hnone⟩
      refine ⟨by omega, ?_⟩
      rw [List.mem_iff_getElem] at hrow
      obtain ⟨n, hn, hrow⟩ := hrow
      refine ⟨n, hn, ?_⟩
      have hr : b.rows.getD n [] = row := by
        rw [List.getD_eq_getElem?_getD, List.getElem?_eq_getElem hn, Option.getD_some, hrow]
      rw [Board.cell, hr]
      exact Option.isNone_iff_eq_none.mp hnone
    · rintro ⟨_, i, hi, hcell⟩
      refine ⟨b.rows.getD i [], ?_, ?_⟩
      · rw [List.getD_eq_getElem?_getD, List.getElem?_eq_getElem hi, Option.getD_some]
        exact List.getElem_mem hi
      · rw [Option.isNone_iff_eq_none]
        exact hcell

/-! Reachable boards and the gravity invariant. -/

/-- Every cell of a freshly constructed board is empty. -/
theorem cell_new (R C i j : Nat) : (Board.new R C).cell i j = none := by
  show ((List.replicate R (List.replicate C none)).getD i []).getD j none = none
  have hrow : (List.replicate R (List.replicate C (none : BoardCell))).getD i [] =
      List.replicate C (none : BoardCell) ∨
      (List.replicate R (List.replicate C (none : BoardCell))).getD i [] = [] := by
    rw [List.getD_eq_getElem?_getD, List.getElem?_replicate]
    by_cases hi : i < R
    · rw [if_pos hi]
      exact Or.inl rfl
    · rw [if_neg hi]
      exact Or.inr rfl
  rcases hrow with h | h
  · rw [h, List.getD_eq_getElem?_getD, List.getElem?_replicate]
    by_cases hj : j < C
    · rw [if_pos hj]; rfl
    · rw [if_neg hj]; rfl
  · rw [h]; rfl

/-- No floating tokens: within each column, below an occupied cell every
cell is occupied (row 0 is the top, larger indices are lower). -/
def BottomFilled (b : Board) : Prop :=
  ∀ col i j, i < j → j < b.rows.length → b.cell i col ≠ none → b.cell j col ≠ none

/-- Boards reachable from the empty `R×C` board by `place_token` calls on
in-range columns that still have an empty cell. -/
inductive Reached (R C : Nat) : Board → Prop where
  | init : Reached R C (Board.new R C)
  | step (b : Board) (col : Nat) (p : Player) (hb : Reached R C b)
      (hcol : col < C) (hfree : ∃ i, i < R ∧ b.cell i col = none) :
      Reached R C (b.place_token col p)

theorem reached_rect {R C : Nat} {b : Board} (h : Reached R C b) : Rect b R C := by
  induction h with
  | init => exact rect_new R C
  | step b col p _ _ _ ih => exact rect_place ih col p

theorem bottomFilled_new (R C : Nat) : BottomFilled (Board.new R C) := by
  intro col i j _ _ hocc
  exact absurd (cell_new R C i col) hocc

theorem bottomFilled_place {b : Board} {R C : Nat} (hrect : Rect b R C)
    (hbf : BottomFilled b) (col : Nat) (p : Player)
    (hcol : col < C) (hfree : ∃ i, i < R ∧ b.cell i col = none) :
    BottomFilled (b.place_token col p) := by
  have hfree' : ∃ i, i < b.rows.length ∧ b.cell i col = none := by
    obtain ⟨i, hi, hc⟩ := hfree
    exact ⟨i, by rw [hrect.1]; exact hi, hc⟩
  obtain ⟨ht, htc, hmax⟩ := targetRow_spec b col hfree'
  have hplace_t : (b.place_token col p).cell (b.targetRow col) col = some p := by
    refine cell_place_self b col p ht ?_
    rw [hrect.rowLen (by rw [← hrect.1]; exact ht)]
    exact hcol
  intro col' i j hij hj hocc
  rw [place_rowCount] at hj
  by_cases hjt : j = b.targetRow col ∧ col' = col
  · rw [hjt.1, hjt.2, hplace_t]
    simp
  · rw [cell_place_of_ne b col p j col' hjt]
    by_cases hit : i = b.targetRow col ∧ col' = col
    · exact hit.2 ▸ hmax j (hit.1 ▸ hij) hj
    · rw [cell_place_of_ne b col p i col' hit] at hocc
      exact hbf col' i j hij hj hocc

theorem reached_bottomFilled {R C : Nat} {b : Board} (h : Reached R C b) :
    BottomFilled b := by
  induction h with
  | init => exact bottomFilled_new R C
  | step b col p hb hcol hfree ih =>
    exact bottomFilled_place (reached_rect hb) ih col p hcol hfree

/-! Counting tokens in a column. -/

/-- The number of occupied cells of column `col`. -/
def Board.colTokens (b : Board) (col : Nat) : Nat :=
  (List.range b.rows.length).countP (fun i => (b.cell i col).isSome)

theorem countP_range_gt (t : Nat) :
    ∀ n, t < n → (List.range n).countP (fun i => decide (t < i)) = n - t - 1 := by
  intro n
  induction n with
  | zero => omega
  | succ n ih =>
    intro ht
    rw [List.range_succ, List.countP_append, List.countP_cons, List.countP_nil]
    by_cases h : t < n
    · rw [ih h]
      simp only [decide_eq_true_eq]
      rw [if_pos h]
      omega
    · have hteq : t = n := by omega
      subst hteq
      have h0 : (List.range t).countP (fun i => decide (t < i)) = 0 := by
        rw [List.countP_eq_zero]
        intro a ha
        rw [List.mem_range] at ha
        simpa using by omega
      rw [h0]
      simp only [decide_eq_true_eq]
      rw [if_neg (by omega)]
      omega

theorem targetRow_eq_of_bottomFilled (b : Board) (col : Nat)
    (hbf : BottomFilled b)
    (hfree : ∃ i, i < b.rows.length ∧ b.cell i col = none) :
    b.targetRow col = b.rows.length - 1 - b.colTokens col := by
  obtain ⟨ht, htc, hmax⟩ := targetRow_spec b col hfree
  have hcount : b.colTokens col = b.rows.length - b.targetRow col - 1 := by
    unfold Board.colTokens
    have hcongr : ∀ i ∈ List.range b.rows.length,
        ((b.cell i col).isSome = true ↔ decide (b.targetRow col < i) = true) := by
      intro i hi
      rw [List.mem_range] at hi
      rw [Option.isSome_iff_ne_none, decide_eq_true_eq]
      constructor
      · intro hs
        by_contra hle
        push_neg at hle
        rcases Nat.lt_or_ge i (b.targetRow col) with hlt | hge
        · exact hbf col i (b.targetRow col) hlt ht hs htc
        · have : i = b.targetRow col := by omega
          exact hs (this ▸ htc)
      · intro hlt
        exact hmax i hlt hi
    rw [List.countP_congr hcongr]
    exact countP_range_gt (b.targetRow col) b.rows.length ht
  omega

/-! Claims C2, C6, C7, C8, C9. -/

/-- The two players used for concrete witnesses. -/
def playerX : Player := ⟨"X", 'x'⟩

/-- The second concrete player. -/
def playerO : Player := ⟨"O", 'o'⟩

/-- C9: every board reachable from the all-empty board by `place_token`
calls on non-full columns is bottom-filled in every column: below an
occupied cell every cell of the column is occupied. -/
theorem reachable_boards_bottom_filled (R C : Nat) (b : Board)
    (h : Reached R C b) : BottomFilled b :=
  reached_bottomFilled h

/-- Witness for C9 on a concrete reachable board. -/
theorem reachable_boards_bottom_filled_w :
    BottomFilled ((Board.new 2 2).place_token 0 playerX) :=
  reachable_boards_bottom_filled 2 2 _
    (Reached.step _ 0 _ Reached.init (by decide) ⟨1, by decide, by decide⟩)

/-- A cell already occupied by `q` is untouched by a `place_token` call on
a column accepted by `valid_move`. -/
theorem cell_persist_place (b : Board) (col : Nat) (p : Player)
    (hvalid : b.valid_move col = true) (i j : Nat) (q : Player)
    (hc : b.cell i j = some q) : (b.place_token col p).cell i j = some q := by
  obtain ⟨hcol, hfree⟩ := (valid_move_iff b col).mp hvalid
  obtain ⟨ht, htc, hmax⟩ := targetRow_spec b col hfree
  by_cases hij : i = b.targetRow col ∧ j = col
  · rw [hij.1, hij.2, htc] at hc
    cases hc
  · rw [cell_place_of_ne b col p i j hij]
    exact hc

/-- C6: along any run of the turn loop (every placement on a column that
`valid_move` accepted), an occupied cell keeps its owner: tokens are never
removed and never overwritten. -/
theorem occupied_cells_persist (g g' : Game)
    (h : Relation.ReflTransGen GameStep g g')
    (i j : Nat) (p : Player) (hc : g.board.cell i j = some p) :
    g'.board.cell i j = some p := by
  induction h with
  | refl => exact hc
  | tail _ hstep ih =>
    cases hstep with
    | move col hvalid =>
      exact cell_persist_place _ col _ hvalid i j p ih

/-- Witness for C6: one concrete turn-loop step preserves an occupied cell. -/
theorem occupied_cells_persist_w :
    ((⟨⟨[[none, none], [some playerX, none]]⟩, 2, [playerX, playerO], 0⟩ :
        Game).playMove 1).board.cell 1 0 = some playerX :=
  occupied_cells_persist _ _
    (Relation.ReflTransGen.single (GameStep.move _ 1 (by decide)))
    1 0 playerX (by decide)

/-- C2: on a column with an empty cell, `place_token` writes the player
into the greatest-index (lowest) empty row of that column; on a board
reachable by gravity placements, a column holding `k` tokens receives the
token in row `rows - 1 - k`. -/
theorem place_token_lowest_empty :
    (∀ (R C : Nat) (b : Board) (col : Nat) (p : Player), Rect b R C → col < C →
      (∃ i, i < R ∧ b.cell i col = none) →
      b.cell (b.targetRow col) col = none ∧
      (∀ i, b.targetRow col < i → i < R → b.cell i col ≠ none) ∧
      (b.place_token col p).cell (b.targetRow col) col = some p) ∧
    (∀ (R C : Nat) (b : Board) (col : Nat), Reached R C b → col < C →
      (∃ i, i < R ∧ b.cell i col = none) →
      b.targetRow col = R - 1 - b.colTokens col) := by
  constructor
  · intro R C b col p hrect hcol hfree
    have hfree' : ∃ i, i < b.rows.length ∧ b.cell i col = none := by
      obtain ⟨i, hi, hcell⟩ := hfree
      exact ⟨i, by rw [hrect.1]; exact hi, hcell⟩
    obtain ⟨ht, htc, hmax⟩ := targetRow_spec b col hfree'
    refine ⟨htc, ?_, ?_⟩
    · intro i h1 h2
      exact hmax i h1 (by rw [hrect.1]; exact h2)
    · refine cell_place_self b col p ht ?_
      rw [hrect.rowLen (by rw [← hrect.1]; exact ht)]
      exact hcol
  · intro R C b col hr hcol hfree
    have hrect := reached_rect hr
    have hfree' : ∃ i, i < b.rows.length ∧ b.cell i col = none := by
      obtain ⟨i, hi, hcell⟩ := hfree
      exact ⟨i, by rw [hrect.1]; exact hi, hcell⟩
    have := targetRow_eq_of_bottomFilled b col (reached_bottomFilled hr) hfree'
    rw [hrect.1] at this
    exact this

/-- Witness for C2 on the empty 2×2 board and then one placement. -/
theorem place_token_lowest_empty_w :
    ((Board.new 2 2).place_token 0 playerX).cell
        ((Board.new 2 2).targetRow 0) 0 = some playerX ∧
      ((Board.new 2 2).place_token 0 playerX).targetRow 0 =
        2 - 1 - ((Board.new 2 2).place_token 0 playerX).colTokens 0 := by
  constructor
  · exact (place_token_lowest_empty.1 2 2 (Board.new 2 2) 0 playerX
      (rect_new 2 2) (by decide) ⟨1, by decide, by decide⟩).2.2
  · exact place_token_lowest_empty.2 2 2 _ 0
      (Reached.step _ 0 _ Reached.init (by decide) ⟨1, by decide, by decide⟩)
      (by decide) ⟨0, by decide, by decide⟩

/-- C7: on a full in-range column the scan of `place_token` never moves
`target_row` off its initial value 0, so the player is written into row 0,
over the token already there. -/
theorem place_token_full_column (R C : Nat) (b : Board) (col : Nat) (p : Player)
    (hrect : Rect b R C) (hR : 0 < R) (hcol : col < C)
    (hfull : ∀ i, i < R → b.cell i col ≠ none) :
    b.targetRow col = 0 ∧ b.cell 0 col ≠ none ∧
      (b.place_token col p).cell 0 col = some p := by
  have ht0 : b.targetRow col = 0 :=
    targetRow_of_full b col (fun i hi => hfull i (by rw [← hrect.1]; exact hi))
  refine ⟨ht0, hfull 0 hR, ?_⟩
  have hlt : b.targetRow col < b.rows.length := by
    rw [ht0, hrect.1]
    exact hR
  have hcl : col < (b.rows.getD (b.targetRow col) []).length := by
    rw [hrect.rowLen (show b.targetRow col < R from ht0 ▸ hR)]
    exact hcol
  have hres := cell_place_self b col p hlt hcl
  rw [ht0] at hres
  exact hres

/-- Witness for C7: overwriting the single cell of a full 1×1 board. -/
theorem place_token_full_column_w :
    (⟨[[some playerX]]⟩ : Board).targetRow 0 = 0 ∧
      (⟨[[some playerX]]⟩ : Board).cell 0 0 ≠ none ∧
      ((⟨[[some playerX]]⟩ : Board).place_token 0 playerO).cell 0 0 = some playerO :=
  place_token_full_column 1 1 _ 0 playerO
    ⟨by decide, by decide⟩ (by decide) (by decide)
    (by intro i hi; interval_cases i; decide)

/-- C8: `place_token` on a column with an empty cell changes exactly the
lowest empty cell of that column from empty to the player, and leaves
every other cell, the row count, and every row length unchanged. -/
theorem place_token_frame (R C : Nat) (b : Board) (col : Nat) (p : Player)
    (hrect : Rect b R C) (hcol : col < C)
    (hfree : ∃ i, i < R ∧ b.cell i col = none) :
    b.cell (b.targetRow col) col = none ∧
    (∀ i, b.targetRow col < i → i < R → b.cell i col ≠ none) ∧
    (b.place_token col p).cell (b.targetRow col) col = some p ∧
    (∀ i j, ¬(i = b.targetRow col ∧ j = col) →
      (b.place_token col p).cell i j = b.cell i j) ∧
    (b.place_token col p).rows.length = b.rows.length ∧
    (∀ i, ((b.place_token col p).rows.getD i []).length =
      (b.rows.getD i []).length) := by
  have hfree' : ∃ i, i < b.rows.length ∧ b.cell i col = none := by
    obtain ⟨i, hi, hcell⟩ := hfree
    exact ⟨i, by rw [hrect.1]; exact hi, hcell⟩
  obtain ⟨ht, htc, hmax⟩ := targetRow_spec b col hfree'
  refine ⟨htc, ?_, ?_, ?_, place_rowCount b col p, place_rowLen b col p⟩
  · intro i h1 h2
    exact hmax i h1 (by rw [hrect.1]; exact h2)
  · refine cell_place_self b col p ht ?_
    rw [hrect.rowLen (by rw [← hrect.1]; exact ht)]
    exact hcol
  · exact cell_place_of_ne b col p

/-- Witness for C8 on the empty 1×2 board. -/
theorem place_token_frame_w :
    (Board.new 1 2).cell ((Board.new 1 2).targetRow 0) 0 = none ∧
      ((Board.new 1 2).place_token 0 playerX).cell
        ((Board.new 1 2).targetRow 0) 0 = some playerX ∧
      ((Board.new 1 2).place_token 0 playerX).cell 0 1 = (Board.new 1 2).cell 0 1 := by
  have h := place_token_frame 1 2 (Board.new 1 2) 0 playerX
    (rect_new 1 2) (by decide) ⟨0, by decide, by decide⟩
  exact ⟨h.1, h.2.2.1, h.2.2.2.1 0 1 (by decide)⟩

/-! The run-length scan of `Game::check_line`. -/

theorem check_line_go_nil (k count : Nat) (lastP : BoardCell) :
    check_line_go [] k count lastP = none := rfl

theorem check_line_go_cons_none (rest : List BoardCell) (k count : Nat)
    (lastP : BoardCell) :
    check_line_go (none :: rest) k count lastP = check_line_go rest k 0 none := rfl

theorem check_line_go_cons_some (q : Player) (rest : List BoardCell) (k count : Nat)
    (lastP : BoardCell) :
    check_line_go (some q :: rest) k count lastP =
      if some q = lastP then
        if count + 1 = k then some q else check_line_go rest k (count + 1) (some q)
      else check_line_go rest k 1 (some q) := rfl

/-- The line contains `k` consecutive cells all owned by `p`. -/
def hasRun (line : List BoardCell) (k : Nat) (p : Player) : Prop :=
  ∃ pre post, line = pre ++ List.replicate k (some p) ++ post

theorem hasRun_cons (c : BoardCell) {rest : List BoardCell} {k : Nat} {p : Player}
    (h : hasRun rest k p) : hasRun (c :: rest) k p := by
  obtain ⟨pre, post, hsplit⟩ := h
  exact ⟨c :: pre, post, by rw [hsplit]; rfl⟩

/-- Soundness of the scan, generalised over the scan state: a winner is
returned only if the line holds a full run, or the state records `count`
cells of that player and the line starts with the `k - count` missing
ones. -/
theorem check_line_go_sound :
    ∀ (line : List BoardCell) (k count : Nat) (lastP : BoardCell) (p : Player),
      check_line_go line k count lastP = some p →
      hasRun line k p ∨
        (lastP = some p ∧ count < k ∧
          ∃ post, line = List.replicate (k - count) (some p) ++ post) := by
  intro line
  induction line with
  | nil =>
    intro k count lastP p h
    rw [check_line_go_nil] at h
    cases h
  | cons cell rest ih =>
    intro k count lastP p h
    cases cell with
    | none =>
      rw [check_line_go_cons_none] at h
      rcases ih k 0 none p h with h1 | h2
      · exact Or.inl (hasRun_cons none h1)
      · cases h2.1
    | some q =>
      rw [check_line_go_cons_some] at h
      by_cases hl : some q = lastP
      · rw [if_pos hl] at h
        by_cases hck : count + 1 = k
        · rw [if_pos hck] at h
          have hqp : q = p := by injection h
          subst hqp
          refine Or.inr ⟨hl.symm, by omega, rest, ?_⟩
          have : k - count = 1 := by omega
          rw [this]
          rfl
        · rw [if_neg hck] at h
          rcases ih k (count + 1) (some q) p h with h1 | h2
          · exact Or.inl (hasRun_cons _ h1)
          · obtain ⟨hqp, hlt, post, hpost⟩ := h2
            have hqp' : q = p := by injection hqp
            subst hqp'
            refine Or.inr ⟨hl.symm, by omega, post, ?_⟩
            have hrep : List.replicate (k - count) (some q) =
                some q :: List.replicate (k - (count + 1)) (some q) := by
              conv_lhs => rw [show k - count = (k - (count + 1)) + 1 by omega]
              rw [List.replicate_succ]
            rw [hrep, List.cons_append, ← hpost]
      · rw [if_neg hl] at h
        rcases ih k 1 (some q) p h with h1 | h2
        · exact Or.inl (hasRun_cons _ h1)
        · obtain ⟨hqp, hlt, post, hpost⟩ := h2
          have hqp' : q = p := by injection hqp
          subst hqp'
          refine Or.inl ⟨[], post, ?_⟩
          have hrep : List.replicate k (some q) =
              some q :: List.replicate (k - 1) (some q) := by
            conv_lhs => rw [show k = (k - 1) + 1 by omega]
            rw [List.replicate_succ]
          rw [List.nil_append, hrep, List.cons_append, ← hpost]

/-- Soundness of `check_line` from the initial scan state. -/
theorem check_line_sound (line : List BoardCell) (k : Nat) (p : Player)
    (h : check_line line k = some p) : hasRun line k p := by
  rcases check_line_go_sound line k 0 none p h with h1 | h2
  · exact h1
  · cases h2.1

/-- Scanning a block of `m` cells of `p` from a state already holding
`count < k` cells of `p` reaches a winner when `count + m ≥ k`. -/
theorem check_line_go_run (p : Player) :
    ∀ (m c : Nat) (post : List BoardCell) (k : Nat), c < k → k ≤ c + m →
      ∃ q, check_line_go (List.replicate m (some p) ++ post) k c (some p) = some q := by
  intro m
  induction m with
  | zero =>
    intro c post k h1 h2
    omega
  | succ m ih =>
    intro c post k h1 h2
    rw [List.replicate_succ, List.cons_append, check_line_go_cons_some, if_pos rfl]
    by_cases hck : c + 1 = k
    · rw [if_pos hck]
      exact ⟨p, rfl⟩
    · rw [if_neg hck]
      exact ih (c + 1) post k (by omega) (by omega)

/-- Completeness of the scan for `k ≥ 2`, generalised over the prefix
before the run and the scan state (whose count stays below `k` in every
reachable state). -/
theorem check_line_go_complete (p : Player) (k : Nat) (hk : 2 ≤ k) :
    ∀ (pre post : List BoardCell) (c : Nat) (lastP : BoardCell), c < k →
      ∃ q, check_line_go (pre ++ (List.replicate k (some p) ++ post)) k c lastP
        = some q := by
  intro pre
  induction pre with
  | nil =>
    intro post c lastP hc
    rw [List.nil_append]
    have hrep : List.replicate k (some p) = some p :: List.replicate (k - 1) (some p) := by
      conv_lhs => rw [show k = (k - 1) + 1 by omega]
      rw [List.replicate_succ]
    rw [hrep, List.cons_append, check_line_go_cons_some]
    by_cases hl : some p = lastP
    · rw [if_pos hl]
      by_cases hck : c + 1 = k
      · rw [if_pos hck]
        exact ⟨p, rfl⟩
      · rw [if_neg hck]
        exact check_line_go_run p (k - 1) (c + 1) post k (by omega) (by omega)
    · rw [if_neg hl]
      exact check_line_go_run p (k - 1) 1 post k (by omega) (by omega)
  | cons cell pre ih =>
    intro post c lastP hc
    rw [List.cons_append]
    cases cell with
    | none =>
      rw [check_line_go_cons_none]
      exact ih post 0 none (by omega)
    | some q =>
      rw [check_line_go_cons_some]
      by_cases hl : some q = lastP
      · rw [if_pos hl]
        by_cases hck : c + 1 = k
        · rw [if_pos hck]
          exact ⟨q, rfl⟩
        · rw [if_neg hck]
          exact ih post (c + 1) (some q) (by omega)
      · rw [if_neg hl]
        exact ih post 1 (some q) (by omega)

/-- Completeness with the returned winner also owning a run. -/
theorem check_line_complete (line : List BoardCell) (k : Nat) (p : Player)
    (hk : 2 ≤ k) (h : hasRun line k p) :
    ∃ q, check_line line k = some q ∧ hasRun line k q := by
  obtain ⟨pre, post, hsplit⟩ := h
  obtain ⟨q, hq⟩ := check_line_go_complete p k hk pre post 0 none (by omega)
  rw [← List.append_assoc] at hq
  rw [← hsplit] at hq
  exact ⟨q, hq, check_line_sound line k q hq⟩

/-! Claims C3 and C10. -/

/-- C3 counterexample: with `tokens_to_win = 1` a run of length 1 is never
reported, and when two players both own full runs only the owner of the
first completed run is returned, not the other. -/
theorem check_line_run_cex :
    check_line [some playerX] 1 = none ∧
      check_line [some playerX, some playerX, some playerO, some playerO] 2 =
        some playerX ∧ playerX ≠ playerO := by
  refine ⟨rfl, rfl, ?_⟩
  intro h
  have := congrArg Player.token h
  simp [playerX, playerO] at this

/-- C3 (amended): for `tokens_to_win ≥ 2`, a line containing a run of
`tokens_to_win` consecutive cells of one player makes `check_line` return
some player owning such a run (the first whose run completes in scan
order); an empty cell resets the scan to count 0 with no last player, and
a cell of a player different from the last one restarts the count at 1
for that player. -/
theorem check_line_run_restart :
    (∀ (line : List BoardCell) (k : Nat) (p : Player), 2 ≤ k → hasRun line k p →
      ∃ q, check_line line k = some q ∧ hasRun line k q) ∧
    (∀ (rest : List BoardCell) (k count : Nat) (lastP : BoardCell),
      check_line_go (none :: rest) k count lastP = check_line_go rest k 0 none) ∧
    (∀ (rest : List BoardCell) (k count : Nat) (lastP : BoardCell) (q : Player),
      some q ≠ lastP →
      check_line_go (some q :: rest) k count lastP =
        check_line_go rest k 1 (some q)) := by
  refine ⟨fun line k p hk h => check_line_complete line k p hk h,
    fun rest k count lastP => check_line_go_cons_none rest k count lastP,
    fun rest k count lastP q hne => ?_⟩
  rw [check_line_go_cons_some, if_neg hne]

/-- Witness for the amended C3 at concrete lines and scan states. -/
theorem check_line_run_restart_w :
    (∃ q, check_line [some playerX, some playerX] 2 = some q ∧
      hasRun [some playerX, some playerX] 2 q) ∧
    check_line_go [none, some playerX] 3 1 (some playerO) =
      check_line_go [some playerX] 3 0 none ∧
    check_line_go [some playerX, some playerX] 3 1 (some playerO) =
      check_line_go [some playerX] 3 1 (some playerX) :=
  ⟨check_line_run_restart.1 [some playerX, some playerX] 2 playerX (by omega)
      ⟨[], [], rfl⟩,
    check_line_run_restart.2.1 [some playerX] 3 1 (some playerO),
    check_line_run_restart.2.2 [some playerX] 3 1 (some playerO) playerX
      (by intro h; have := congrArg (fun o => (Option.getD o playerO).token) h; simp [playerX, playerO] at this)⟩

/-- C10: `check_line` reports a player only if that player owns
`tokens_to_win` consecutive cells of the line; consequently an all-empty
line, or a line shorter than `tokens_to_win ≥ 1`, yields no winner. -/
theorem check_line_only_if_run :
    (∀ (line : List BoardCell) (k : Nat) (p : Player),
      check_line line k = some p → hasRun line k p) ∧
    (∀ (line : List BoardCell) (k : Nat), 1 ≤ k →
      ((∀ c ∈ line, c = none) → check_line line k = none) ∧
      (line.length < k → check_line line k = none)) := by
  refine ⟨check_line_sound, fun line k hk => ⟨?_, ?_⟩⟩
  · intro hall
    cases hres : check_line line k with
    | none => rfl
    | some p =>
      obtain ⟨pre, post, hsplit⟩ := check_line_sound line k p hres
      have hmem : some p ∈ line := by
        rw [hsplit]
        refine List.mem_append.mpr (Or.inl (List.mem_append.mpr (Or.inr ?_)))
        rw [List.mem_replicate]
        exact ⟨by omega, rfl⟩
      cases hall _ hmem
  · intro hlen
    cases hres : check_line line k with
    | none => rfl
    | some p =>
      obtain ⟨pre, post, hsplit⟩ := check_line_sound line k p hres
      have : line.length = pre.length + k + post.length := by
        rw [hsplit]
        simp [List.length_append, List.length_replicate]
        omega
      omega

/-- Witness for C10 at concrete lines. -/
theorem check_line_only_if_run_w :
    hasRun [some playerX, some playerX] 2 playerX ∧
      check_line [none, none] 2 = none ∧
      check_line [some playerX] 2 = none :=
  ⟨check_line_only_if_run.1 [some playerX, some playerX] 2 playerX rfl,
    (check_line_only_if_run.2 [none, none] 2 (by omega)).1 (by decide),
    (check_line_only_if_run.2 [some playerX] 2 (by omega)).2 (by decide)⟩

/-! Claim C1: ordering of the fullness and winner checks in `Game::status`. -/

/-- A 2×2 game, `tokens_to_win = 2`, whose board is full and whose top row
is a winning run for `playerX`. -/
def fullWinGame : Game :=
  ⟨⟨[[some playerX, some playerX], [some playerO, some playerO]]⟩, 2,
    [playerX, playerO], 0⟩

/-- C1: on a full board that contains a winning line, `Game::status`
returns `Draw` and not `Win`, because `is_board_full` is consulted before
`find_winner`; the spec requires the winner check to come first. -/
theorem status_full_board_with_win :
    fullWinGame.board.is_board_full = true ∧
      fullWinGame.find_winner = some playerX ∧
      fullWinGame.status = GameStatus.Draw ∧
      fullWinGame.status ≠ GameStatus.Win playerX := by
  refine ⟨rfl, rfl, rfl, ?_⟩
  intro h
  have : GameStatus.Draw = GameStatus.Win playerX := h
  cases this

/-! Claim C5: the validation performed by `Game::new`. -/

theorem validate_players_go_ok :
    ∀ (players : List Player) (seen : List Char),
      validate_players_go players seen = Except.ok () ↔
        ((players.map Player.token).Nodup ∧ ∀ p ∈ players, p.token ∉ seen) := by
  intro players
  induction players with
  | nil =>
    intro seen
    simp [validate_players_go]
  | cons p rest ih =>
    intro seen
    rw [validate_players_go]
    by_cases hmem : p.token ∈ seen
    · rw [if_pos hmem]
      constructor
      · intro h
        cases h
      · rintro ⟨_, hall⟩
        exact absurd hmem (hall p (List.mem_cons_self p rest))
    · rw [if_neg hmem, ih (p.token :: seen)]
      constructor
      · rintro ⟨hnd, hall⟩
        refine ⟨?_, ?_⟩
        · rw [List.map_cons, List.nodup_cons]
          refine ⟨?_, hnd⟩
          intro hmem'
          rw [List.mem_map] at hmem'
          obtain ⟨q, hq, hqt⟩ := hmem'
          exact hall q hq (hqt ▸ List.mem_cons_self p.token seen)
        · intro q hq
          rcases List.mem_cons.mp hq with hqp | hqr
          · exact hqp ▸ hmem
          · intro hqs
            exact hall q hqr (List.mem_cons_of_mem _ hqs)
      · rintro ⟨hnd, hall⟩
        rw [List.map_cons, List.nodup_cons] at hnd
        refine ⟨hnd.2, ?_⟩
        intro q hq
        rw [List.mem_cons]
        rintro (hqp | hqs)
        · exact hnd.1 (List.mem_map.mpr ⟨q, hq, hqp⟩)
        · exact hall q (List.mem_cons_of_mem _ hq) hqs

theorem validate_players_ok (players : List Player) :
    validate_players players = Except.ok () ↔ (players.map Player.token).Nodup := by
  rw [validate_players, validate_players_go_ok]
  simp

theorem validate_game_config_ok (rows cols k : Nat) :
    validate_game_config rows cols k = Except.ok () ↔
      (1 ≤ rows ∧ 1 ≤ cols ∧ 2 ≤ k ∧ k ≤ rows ∧ k ≤ cols) := by
  unfold validate_game_config
  by_cases h1 : rows < 1 ∨ cols < 1
  · rw [if_pos h1]
    constructor
    · intro h; cases h
    · intro h; omega
  · rw [if_neg h1]
    by_cases h2 : k < 2
    · rw [if_pos h2]
      constructor
      · intro h; cases h
      · intro h; omega
    · rw [if_neg h2]
      by_cases h3 : k > rows ∨ k > cols
      · rw [if_pos h3]
        constructor
        · intro h; cases h
        · intro h; omega
      · rw [if_neg h3]
        constructor
        · intro _; omega
        · intro _; rfl

/-- C5: `Game::new` succeeds exactly when there are at least 2 players
with pairwise distinct tokens, `rows ≥ 1`, `cols ≥ 1`,
`2 ≤ tokens_to_win ≤ min(rows, cols)` and
`players * tokens_to_win ≤ rows * cols`; on success the game starts with
an all-empty `rows×cols` board and `current_turn = 0`. -/
theorem game_new_validation :
    (∀ (R C k : Nat) (players : List Player),
      (∃ g, Game.new R C k players = Except.ok g) ↔
        (2 ≤ players.length ∧ (players.map Player.token).Nodup ∧
          1 ≤ R ∧ 1 ≤ C ∧ 2 ≤ k ∧ k ≤ R ∧ k ≤ C ∧
          players.length * k ≤ R * C)) ∧
    (∀ (R C k : Nat) (players : List Player) (g : Game),
      Game.new R C k players = Except.ok g →
        g.board.rows.length = R ∧ (∀ row ∈ g.board.rows, row.length = C) ∧
        (∀ i j, g.board.cell i j = none) ∧
        g.tokens_to_win = k ∧ g.players = players ∧ g.current_turn = 0) := by
  have hmain : ∀ (R C k : Nat) (players : List Player),
      (if players.length < 2 then
        (Except.error "Must have at least 2 players." : Except String Game)
      else
        match validate_players players with
        | Except.error e => Except.error e
        | Except.ok _ =>
          match validate_game_config R C k with
          | Except.error err =>
            Except.error ("Invalid game configuration: " ++ err)
          | Except.ok _ =>
            if R * C < players.length * k then
              Except.error "Too many players for the board size."
            else
              Except.ok
                { board := Board.new R C
                  tokens_to_win := k
                  players := players
                  current_turn := 0 }) = Game.new R C k players :=
    fun R C k players => rfl
  constructor
  · intro R C k players
    rw [← hmain]
    by_cases hp : players.length < 2
    · rw [if_pos hp]
      constructor
      · rintro ⟨g, hg⟩
        cases hg
      · intro h
        omega
    · rw [if_neg hp]
      cases hvp : validate_players players with
      | error e =>
        constructor
        · rintro ⟨g, hg⟩
          cases hg
        · intro h
          have := (validate_players_ok players).mpr h.2.1
          rw [hvp] at this
          cases this
      | ok u =>
        cases u
        cases hvc : validate_game_config R C k with
        | error e =>
          constructor
          · rintro ⟨g, hg⟩
            cases hg
          · intro h
            have := (validate_game_config_ok R C k).mpr
              ⟨h.2.2.1, h.2.2.2.1, h.2.2.2.2.1, h.2.2.2.2.2.1, h.2.2.2.2.2.2.1⟩
            rw [hvc] at this
            cases this
        | ok u =>
          cases u
          by_cases hsize : R * C < players.length * k
          · rw [if_pos hsize]
            constructor
            · rintro ⟨g, hg⟩
              cases hg
            · intro h
              omega
          · rw [if_neg hsize]
            constructor
            · intro _
              have hcfg := (validate_game_config_ok R C k).mp hvc
              have hnd := (validate_players_ok players).mp hvp
              refine ⟨by omega, hnd, hcfg.1, hcfg.2.1, hcfg.2.2.1,
                hcfg.2.2.2.1, hcfg.2.2.2.2, by omega⟩
            · intro _
              exact ⟨_, rfl⟩
  · intro R C k players g hg
    rw [← hmain] at hg
    by_cases hp : players.length < 2
    · rw [if_pos hp] at hg
      cases hg
    · rw [if_neg hp] at hg
      cases hvp : validate_players players with
      | error e =>
        rw [hvp] at hg
        cases hg
      | ok u =>
        cases u
        rw [hvp] at hg
        cases hvc : validate_game_config R C k with
        | error e =>
          rw [hvc] at hg
          cases hg
        | ok u =>
          cases u
          rw [hvc] at hg
          by_cases hsize : R * C < players.length * k
          · rw [if_pos hsize] at hg
            cases hg
          · rw [if_neg hsize] at hg
            injection hg with hg
            subst hg
            refine ⟨(rect_new R C).1, (rect_new R C).2, ?_, rfl, rfl, rfl⟩
            intro i j
            exact cell_new R C i j

/-- Witness for C5 at a concrete valid configuration. -/
theorem game_new_validation_w :
    (∃ g, Game.new 2 2 2 [playerX, playerO] = Except.ok g) ∧
      (∀ i j, (⟨Board.new 2 2, 2, [playerX, playerO], 0⟩ : Game).board.cell i j
          = none) :=
  ⟨(game_new_validation.1 2 2 2 [playerX, playerO]).mpr
      ⟨by decide, by decide, by decide, by decide, by decide, by decide, by decide,
        by decide⟩,
    (game_new_validation.2 2 2 2 [playerX, playerO] _ rfl).2.2.1⟩

/-! Claim C4: index-level description of the diagonal scans. Both
directions traverse, for each offset `d`, the rows `i < R` and keep the
cell in column `jf d i` when a guard `cond d i` holds; the machinery below
is shared between the two directions. -/

/-- Index pairs visited by the diagonal of offset `d`. -/
def diagIdx (R : Nat) (cond : Nat → Nat → Bool) (jf : Nat → Nat → Nat) (d : Nat) :
    List (Nat × Nat) :=
  (List.range R).filterMap (fun i => if cond d i then some (i, jf d i) else none)

/-- All index pairs of an `R×C` grid, row-major. -/
def allIdx (R C : Nat) : List (Nat × Nat) :=
  ((List.range R).map (fun i => (List.range C).map (fun j => (i, j)))).flatten

theorem mem_diagIdx {R : Nat} {cond : Nat → Nat → Bool} {jf : Nat → Nat → Nat}
    {d : Nat} {i j : Nat} :
    (i, j) ∈ diagIdx R cond jf d ↔ i < R ∧ cond d i = true ∧ j = jf d i := by
  rw [diagIdx, List.mem_filterMap]
  constructor
  · rintro ⟨a, ha, hfa⟩
    rw [List.mem_range] at ha
    by_cases h : cond d a
    · rw [if_pos h] at hfa
      injection hfa with hfa
      rw [Prod.mk.injEq] at hfa
      obtain ⟨h1, h2⟩ := hfa
      subst h1
      exact ⟨ha, h, h2.symm⟩
    · rw [if_neg h] at hfa
      cases hfa
  · rintro ⟨h1, h2, h3⟩
    refine ⟨i, List.mem_range.mpr h1, ?_⟩
    rw [if_pos h2, h3]

theorem nodup_diagIdx (R : Nat) (cond : Nat → Nat → Bool) (jf : Nat → Nat → Nat)
    (d : Nat) : (diagIdx R cond jf d).Nodup := by
  refine List.Nodup.filterMap ?_ (List.nodup_range R)
  intro a a' p hp hp'
  rw [Option.mem_def] at hp hp'
  have ha : p.1 = a := by
    by_cases h : cond d a
    · rw [if_pos h] at hp
      injection hp with hp
      rw [← hp]
    · rw [if_neg h] at hp
      cases hp
  have ha' : p.1 = a' := by
    by_cases h : cond d a'
    · rw [if_pos h] at hp'
      injection hp' with hp'
      rw [← hp']
    · rw [if_neg h] at hp'
      cases hp'
  rw [← ha, ha']

theorem diagIdx_ne_nil {R : Nat} {cond : Nat → Nat → Bool} {jf : Nat → Nat → Nat}
    {d : Nat} (h : ∃ i, i < R ∧ cond d i = true) :
    diagIdx R cond jf d ≠ [] := by
  obtain ⟨i, hi, hc⟩ := h
  intro hnil
  rw [diagIdx, List.filterMap_eq_nil_iff] at hnil
  have := hnil i (List.mem_range.mpr hi)
  rw [if_pos hc] at this
  cases this

theorem nodup_allIdx (R C : Nat) : (allIdx R C).Nodup := by
  rw [allIdx, List.nodup_flatten]
  constructor
  · intro l hl
    rw [List.mem_map] at hl
    obtain ⟨i, _, rfl⟩ := hl
    refine List.Nodup.map ?_ (List.nodup_range C)
    intro a b hab
    rw [Prod.mk.injEq] at hab
    exact hab.2
  · rw [List.pairwise_map]
    refine List.Pairwise.imp ?_ (List.pairwise_lt_range R)
    intro a b hab x hxa hxb
    rw [List.mem_map] at hxa hxb
    obtain ⟨j, _, rfl⟩ := hxa
    obtain ⟨j', _, hx⟩ := hxb
    rw [Prod.mk.injEq] at hx
    omega

theorem mem_allIdx {R C i j : Nat} : (i, j) ∈ allIdx R C ↔ i < R ∧ j < C := by
  rw [allIdx, List.mem_flatten]
  constructor
  · rintro ⟨l, hl, hij⟩
    rw [List.mem_map] at hl
    obtain ⟨a, ha, rfl⟩ := hl
    rw [List.mem_range] at ha
    rw [List.mem_map] at hij
    obtain ⟨b, hb, hab⟩ := hij
    rw [List.mem_range] at hb
    rw [Prod.mk.injEq] at hab
    obtain ⟨rfl, rfl⟩ := hab
    exact ⟨ha, hb⟩
  · rintro ⟨hi, hj⟩
    refine ⟨(List.range C).map (fun j => (i, j)), ?_, ?_⟩
    · rw [List.mem_map]
      exact ⟨i, List.mem_range.mpr hi, rfl⟩
    · rw [List.mem_map]
      exact ⟨j, List.mem_range.mpr hj, rfl⟩

/-- The diagonals of one direction visit every index pair of the grid
exactly once: their concatenation is a permutation of the row-major
enumeration. `dInv` recovers the offset of the diagonal through a cell. -/
theorem diagIdx_flatten_perm (R C : Nat) (cond : Nat → Nat → Bool)
    (jf : Nat → Nat → Nat) (dInv : Nat × Nat → Nat)
    (h1 : ∀ d i, cond d i = true → jf d i < C ∧ dInv (i, jf d i) = d)
    (h2 : ∀ i j, i < R → j < C →
      cond (dInv (i, j)) i = true ∧ jf (dInv (i, j)) i = j ∧
        dInv (i, j) < R + C - 1) :
    ((List.range (R + C - 1)).map (diagIdx R cond jf)).flatten.Perm (allIdx R C) := by
  have nd1 : ((List.range (R + C - 1)).map (diagIdx R cond jf)).flatten.Nodup := by
    rw [List.nodup_flatten]
    constructor
    · intro l hl
      rw [List.mem_map] at hl
      obtain ⟨d, _, rfl⟩ := hl
      exact nodup_diagIdx R cond jf d
    · rw [List.pairwise_map]
      refine List.Pairwise.imp ?_ (List.pairwise_lt_range (R + C - 1))
      intro a b hab x hxa hxb
      obtain ⟨i, j⟩ := x
      rw [mem_diagIdx] at hxa hxb
      have hda : dInv (i, j) = a := hxa.2.2 ▸ (h1 a i hxa.2.1).2
      have hdb : dInv (i, j) = b := hxb.2.2 ▸ (h1 b i hxb.2.1).2
      omega
  refine (List.perm_ext_iff_of_nodup nd1 (nodup_allIdx R C)).mpr ?_
  intro ij
  obtain ⟨i, j⟩ := ij
  rw [List.mem_flatten, mem_allIdx]
  constructor
  · rintro ⟨l, hl, hij⟩
    rw [List.mem_map] at hl
    obtain ⟨d, _, rfl⟩ := hl
    rw [mem_diagIdx] at hij
    exact ⟨hij.1, hij.2.2 ▸ (h1 d i hij.2.1).1⟩
  · rintro ⟨hi, hj⟩
    obtain ⟨hc, hjf, hd⟩ := h2 i j hi hj
    refine ⟨diagIdx R cond jf (dInv (i, j)), ?_, ?_⟩
    · rw [List.mem_map]
      exact ⟨dInv (i, j), List.mem_range.mpr hd, rfl⟩
    · rw [mem_diagIdx]
      exact ⟨hi, hc, hjf.symm⟩

/-- The grid cells, read through `allIdx`, are exactly the concatenation
of the rows. -/
theorem rows_flatten_eq (b : Board) (R C : Nat) (hrect : Rect b R C) :
    b.rows.flatten = (allIdx R C).map (fun ij => b.cell ij.1 ij.2) := by
  rw [allIdx, List.map_flatten, List.map_map]
  congr 1
  have h1 : b.rows = (List.range b.rows.length).map (fun i => b.rows.getD i []) :=
    (getD_map_range b.rows []).symm
  rw [hrect.1] at h1
  conv_lhs => rw [h1]
  apply List.map_congr_left
  intro i hi
  rw [List.mem_range] at hi
  show b.rows.getD i [] =
    List.map (fun ij => b.cell ij.1 ij.2) (List.map (fun j => (i, j)) (List.range C))
  rw [List.map_map]
  have h2 : b.rows.getD i [] =
      (List.range (b.rows.getD i []).length).map
        (fun j => (b.rows.getD i []).getD j none) :=
    (getD_map_range _ none).symm
  rw [hrect.rowLen hi] at h2
  conv_lhs => rw [h2]
  apply List.map_congr_left
  intro j _
  rfl

/-- Guard of the top-left-to-bottom-right scan, in `Nat` form: the column
`d - i` is in range. -/
def condTLBR (C d i : Nat) : Bool := decide (i ≤ d ∧ d - i < C)

/-- Column visited by the top-left-to-bottom-right scan. -/
def jfTLBR (d i : Nat) : Nat := d - i

/-- Guard of the top-right-to-bottom-left scan, in `Nat` form: the column
`(C - 1) - (d - i)` is in range. -/
def condTRBL (C d i : Nat) : Bool := decide (i ≤ d ∧ d ≤ C - 1 + i)

/-- Column visited by the top-right-to-bottom-left scan. -/
def jfTRBL (C d i : Nat) : Nat := C - 1 + i - d

/-- The TL-BR extraction, rewritten from its `isize` arithmetic to the
index lists of `diagIdx`. -/
theorem getDiags_TLBR_eq (b : Board) (R C : Nat) (hR : b.rows.length = R)
    (hC : (b.rows.getD 0 []).length = C) :
    b.get_diagonals_top_left_to_bottom_right =
      ((List.range (R + C - 1)).map (fun d =>
        (diagIdx R (condTLBR C) jfTLBR d).map (fun ij => b.cell ij.1 ij.2))).filter
        (fun diagonal => !diagonal.isEmpty) := by
  subst hR
  subst hC
  unfold Board.get_diagonals_top_left_to_bottom_right
  congr 1
  apply List.map_congr_left
  intro d _
  rw [diagIdx, List.map_filterMap]
  apply List.filterMap_congr
  intro i _
  show (if 0 ≤ (d : Int) - (i : Int) ∧
      (d : Int) - (i : Int) < ((b.rows.getD 0 []).length : Int) then
      some ((b.rows.getD i []).getD ((d : Int) - (i : Int)).toNat none) else none) =
    Option.map (fun ij => b.cell ij.1 ij.2)
      (if condTLBR (b.rows.getD 0 []).length d i then some (i, jfTLBR d i) else none)
  rw [condTLBR, jfTLBR]
  by_cases h : i ≤ d ∧ d - i < (b.rows.getD 0 []).length
  · rw [if_pos (by omega), if_pos (by rw [decide_eq_true_eq]; exact h)]
    have htn : ((d : Int) - (i : Int)).toNat = d - i := by omega
    rw [htn]
    rfl
  · rw [if_neg (by omega), if_neg (by rw [decide_eq_true_eq]; exact h)]
    rfl

/-- The TR-BL extraction, rewritten likewise (`1 ≤ C` keeps the `Nat`
subtraction `C - 1` faithful to the `isize` arithmetic). -/
theorem getDiags_TRBL_eq (b : Board) (R C : Nat) (hR : b.rows.length = R)
    (hC : (b.rows.getD 0 []).length = C) (hC1 : 1 ≤ C) :
    b.get_diagonals_top_right_to_bottom_left =
      ((List.range (R + C - 1)).map (fun d =>
        (diagIdx R (condTRBL C) (jfTRBL C) d).map
          (fun ij => b.cell ij.1 ij.2))).filter
        (fun diagonal => !diagonal.isEmpty) := by
  subst hR
  subst hC
  unfold Board.get_diagonals_top_right_to_bottom_left
  congr 1
  apply List.map_congr_left
  intro d _
  rw [diagIdx, List.map_filterMap]
  apply List.filterMap_congr
  intro i _
  show (if 0 ≤ (((b.rows.getD 0 []).length : Int) - 1) - ((d : Int) - (i : Int)) ∧
      (((b.rows.getD 0 []).length : Int) - 1) - ((d : Int) - (i : Int)) <
        ((b.rows.getD 0 []).length : Int) then
      some ((b.rows.getD i []).getD
        ((((b.rows.getD 0 []).length : Int) - 1) - ((d : Int) - (i : Int))).toNat none)
    else none) =
    Option.map (fun ij => b.cell ij.1 ij.2)
      (if condTRBL (b.rows.getD 0 []).length d i then
        some (i, jfTRBL (b.rows.getD 0 []).length d i) else none)
  rw [condTRBL, jfTRBL]
  by_cases h : i ≤ d ∧ d ≤ (b.rows.getD 0 []).length - 1 + i
  · rw [if_pos (by omega), if_pos (by rw [decide_eq_true_eq]; exact h)]
    have htn : ((((b.rows.getD 0 []).length : Int) - 1) -
        ((d : Int) - (i : Int))).toNat = (b.rows.getD 0 []).length - 1 + i - d := by
      omega
    rw [htn]
    rfl
  · rw [if_neg (by omega), if_neg (by rw [decide_eq_true_eq]; exact h)]
    rfl

theorem condTLBR_exists (R C d : Nat) (hR : 1 ≤ R) (hC : 1 ≤ C)
    (hd : d < R + C - 1) : ∃ i, i < R ∧ condTLBR C d i = true := by
  refine ⟨min d (R - 1), by omega, ?_⟩
  rw [condTLBR, decide_eq_true_eq]
  omega

theorem condTRBL_exists (R C d : Nat) (hR : 1 ≤ R) (hC : 1 ≤ C)
    (hd : d < R + C - 1) : ∃ i, i < R ∧ condTRBL C d i = true := by
  refine ⟨min d (R - 1), by omega, ?_⟩
  rw [condTRBL, decide_eq_true_eq]
  omega

/-- Dropping the non-emptiness filter: under `1 ≤ R`, `1 ≤ C` every
diagonal of every offset `d < R + C - 1` holds at least one cell. -/
theorem filter_diags_eq (b : Board) (R C : Nat)
    (cond : Nat → Nat → Bool) (jf : Nat → Nat → Nat)
    (hex : ∀ d, d < R + C - 1 → ∃ i, i < R ∧ cond d i = true) :
    ((List.range (R + C - 1)).map (fun d =>
      (diagIdx R cond jf d).map (fun ij => b.cell ij.1 ij.2))).filter
      (fun diagonal => !diagonal.isEmpty) =
    (List.range (R + C - 1)).map (fun d =>
      (diagIdx R cond jf d).map (fun ij => b.cell ij.1 ij.2)) := by
  rw [List.filter_eq_self]
  intro l hl
  rw [List.mem_map] at hl
  obtain ⟨d, hd, rfl⟩ := hl
  rw [List.mem_range] at hd
  have hne := @diagIdx_ne_nil R cond jf d (hex d hd)
  cases hemp : (List.map (fun ij => b.cell ij.1 ij.2) (diagIdx R cond jf d)).isEmpty
  · rfl
  · rw [List.isEmpty_iff, List.map_eq_nil_iff] at hemp
    exact absurd hemp hne

theorem diags_TLBR_flatten_perm (b : Board) (R C : Nat) (hrect : Rect b R C)
    (hR : 1 ≤ R) (hC : 1 ≤ C) :
    b.get_diagonals_top_left_to_bottom_right.flatten.Perm b.rows.flatten := by
  rw [getDiags_TLBR_eq b R C hrect.1 (hrect.rowLen (by omega)),
    filter_diags_eq b R C _ _ (fun d hd => condTLBR_exists R C d hR hC hd)]
  have hmm : (List.range (R + C - 1)).map (fun d =>
      (diagIdx R (condTLBR C) jfTLBR d).map (fun ij => b.cell ij.1 ij.2)) =
      ((List.range (R + C - 1)).map (diagIdx R (condTLBR C) jfTLBR)).map
        (List.map (fun ij => b.cell ij.1 ij.2)) := by
    rw [List.map_map]
    rfl
  rw [hmm, ← List.map_flatten, rows_flatten_eq b R C hrect]
  refine List.Perm.map _ ?_
  refine diagIdx_flatten_perm R C _ _ (fun ij => ij.1 + ij.2) ?_ ?_
  · intro d i hc
    rw [condTLBR, decide_eq_true_eq] at hc
    constructor
    · show jfTLBR d i < C
      rw [jfTLBR]
      omega
    · show i + jfTLBR d i = d
      rw [jfTLBR]
      omega
  · intro i j hi hj
    refine ⟨?_, ?_, ?_⟩
    · show condTLBR C (i + j) i = true
      rw [condTLBR, decide_eq_true_eq]
      omega
    · show jfTLBR (i + j) i = j
      rw [jfTLBR]
      omega
    · show i + j < R + C - 1
      omega

theorem diags_TRBL_flatten_perm (b : Board) (R C : Nat) (hrect : Rect b R C)
    (hR : 1 ≤ R) (hC : 1 ≤ C) :
    b.get_diagonals_top_right_to_bottom_left.flatten.Perm b.rows.flatten := by
  rw [getDiags_TRBL_eq b R C hrect.1 (hrect.rowLen (by omega)) hC,
    filter_diags_eq b R C _ _ (fun d hd => condTRBL_exists R C d hR hC hd)]
  have hmm : (List.range (R + C - 1)).map (fun d =>
      (diagIdx R (condTRBL C) (jfTRBL C) d).map (fun ij => b.cell ij.1 ij.2)) =
      ((List.range (R + C - 1)).map (diagIdx R (condTRBL C) (jfTRBL C))).map
        (List.map (fun ij => b.cell ij.1 ij.2)) := by
    rw [List.map_map]
    rfl
  rw [hmm, ← List.map_flatten, rows_flatten_eq b R C hrect]
  refine List.Perm.map _ ?_
  refine diagIdx_flatten_perm R C _ _ (fun ij => C - 1 + ij.1 - ij.2) ?_ ?_
  · intro d i hc
    rw [condTRBL, decide_eq_true_eq] at hc
    constructor
    · show jfTRBL C d i < C
      rw [jfTRBL]
      omega
    · show C - 1 + i - jfTRBL C d i = d
      rw [jfTRBL]
      omega
  · intro i j hi hj
    refine ⟨?_, ?_, ?_⟩
    · show condTRBL C (C - 1 + i - j) i = true
      rw [condTRBL, decide_eq_true_eq]
      omega
    · show jfTRBL C (C - 1 + i - j) i = j
      rw [jfTRBL]
      omega
    · show C - 1 + i - j < R + C - 1
      omega

theorem diags_TLBR_length (b : Board) (R C : Nat) (hrect : Rect b R C)
    (hR : 1 ≤ R) (hC : 1 ≤ C) :
    b.get_diagonals_top_left_to_bottom_right.length = R + C - 1 := by
  rw [getDiags_TLBR_eq b R C hrect.1 (hrect.rowLen (by omega)),
    filter_diags_eq b R C _ _ (fun d hd => condTLBR_exists R C d hR hC hd),
    List.length_map, List.length_range]

theorem diags_TRBL_length (b : Board) (R C : Nat) (hrect : Rect b R C)
    (hR : 1 ≤ R) (hC : 1 ≤ C) :
    b.get_diagonals_top_right_to_bottom_left.length = R + C - 1 := by
  rw [getDiags_TRBL_eq b R C hrect.1 (hrect.rowLen (by omega)) hC,
    filter_diags_eq b R C _ _ (fun d hd => condTRBL_exists R C d hR hC hd),
    List.length_map, List.length_range]

/-- Members of either diagonal list survived the non-emptiness filter. -/
theorem mem_diags_ne_nil (L : List (List BoardCell)) (diagonal : List BoardCell)
    (h : diagonal ∈ L.filter (fun diagonal => !diagonal.isEmpty)) :
    1 ≤ diagonal.length := by
  have := List.of_mem_filter h
  rcases diagonal with _ | ⟨c, rest⟩
  · cases this
  · simp

/-- The grid holds exactly `R * C` cells. -/
theorem rows_flatten_length (b : Board) (R C : Nat) (hrect : Rect b R C) :
    b.rows.flatten.length = R * C := by
  rw [List.length_flatten]
  have hmap : b.rows.map List.length = List.replicate R C := by
    have h1 : b.rows.map List.length = b.rows.map (Function.const _ C) :=
      List.map_congr_left (fun row hrow => hrect.2 row hrow)
    rw [h1, List.map_const, hrect.1]
  rw [hmap, List.sum_replicate, smul_eq_mul]

/-- C4: for an `R×C` board (`R, C ≥ 1`), each diagonal extraction returns
exactly `R + C - 1` sequences of length ≥ 1, and in each direction the
multiset of all cells across the diagonals is exactly the multiset of the
grid's `R * C` cells. -/
theorem diagonals_partition (R C : Nat) (b : Board) (hrect : Rect b R C)
    (hR : 1 ≤ R) (hC : 1 ≤ C) :
    b.get_diagonals_top_left_to_bottom_right.length = R + C - 1 ∧
    b.get_diagonals_top_right_to_bottom_left.length = R + C - 1 ∧
    (∀ diagonal ∈ b.get_diagonals_top_left_to_bottom_right, 1 ≤ diagonal.length) ∧
    (∀ diagonal ∈ b.get_diagonals_top_right_to_bottom_left, 1 ≤ diagonal.length) ∧
    b.rows.flatten.length = R * C ∧
    (b.get_diagonals_top_left_to_bottom_right.flatten : Multiset BoardCell) =
      (b.rows.flatten : Multiset BoardCell) ∧
    (b.get_diagonals_top_right_to_bottom_left.flatten : Multiset BoardCell) =
      (b.rows.flatten : Multiset BoardCell) := by
  refine ⟨diags_TLBR_length b R C hrect hR hC, diags_TRBL_length b R C hrect hR hC,
    ?_, ?_, rows_flatten_length b R C hrect,
    Multiset.coe_eq_coe.mpr (diags_TLBR_flatten_perm b R C hrect hR hC),
    Multiset.coe_eq_coe.mpr (diags_TRBL_flatten_perm b R C hrect hR hC)⟩
  · intro diagonal hmem
    exact mem_diags_ne_nil _ diagonal hmem
  · intro diagonal hmem
    exact mem_diags_ne_nil _ diagonal hmem

/-- Witness for C4 on a concrete 2×3 board. -/
theorem diagonals_partition_w :
    (⟨[[some playerX, none, some playerO], [none, some playerX, none]]⟩ :
        Board).get_diagonals_top_left_to_bottom_right.length = 2 + 3 - 1 ∧
      ((⟨[[some playerX, none, some playerO], [none, some playerX, none]]⟩ :
        Board).get_diagonals_top_right_to_bottom_left.flatten : Multiset BoardCell) =
      ((⟨[[some playerX, none, some playerO], [none, some playerX, none]]⟩ :
        Board).rows.flatten : Multiset BoardCell) := by
  have h := diagonals_partition 2 3
    ⟨[[some playerX, none, some playerO], [none, some playerX, none]]⟩
    ⟨rfl, by intro row hrow; fin_cases hrow <;> rfl⟩ (by omega) (by omega)
  exact ⟨h.1, h.2.2.2.2.2.2⟩

end ConnectFour
